import Mathlib

/-!
Shallow embedding of the base85 crate (src/lib.rs): the RFC 1924 variant of
Base85.  Bytes are modelled as `Nat` values below 256, `u32` arithmetic as
`Nat` arithmetic reduced `% 2 ^ 32` at the points where the Rust code can
wrap (the decoder accumulators; release-profile wrapping semantics), and
fallible code as `Except`.  Shifts on `u8`-derived values in the encoder
cannot overflow a `u32`, so they are plain `Nat` shifts there.
-/

namespace Base85

/-- Decode errors of the crate (`enum Error` in src/lib.rs). -/
inductive Error where
  | UnexpectedEof : Error
  | InvalidCharacter : Nat → Error
deriving DecidableEq

/-- The 85-entry alphabet table `B85_TO_CHAR`: the ASCII codes of
the byte string b"0123456789ABCDEFGHIJKLMNOPQRSTUVWXYZabcdefghijklmnopqrstuvwxyz!#$%&()*+-;<=>?@^_`(lbrace)|(rbrace)~". -/
def B85_TO_CHAR : List Nat :=
  [48, 49, 50, 51, 52, 53, 54, 55, 56, 57,
   65, 66, 67, 68, 69, 70, 71, 72, 73, 74, 75, 76, 77, 78, 79, 80, 81, 82,
   83, 84, 85, 86, 87, 88, 89, 90,
   97, 98, 99, 100, 101, 102, 103, 104, 105, 106, 107, 108, 109, 110, 111,
   112, 113, 114, 115, 116, 117, 118, 119, 120, 121, 122,
   33, 35, 36, 37, 38, 40, 41, 42, 43, 45, 59, 60, 61, 62, 63, 64, 94, 95,
   96, 123, 124, 125, 126]

/-- `byte_to_char85`: table lookup of a digit value (in-bounds whenever the
argument is below 85, which the encoder guarantees). -/
def byte_to_char85 (x85 : Nat) : Nat :=
  B85_TO_CHAR.getD x85 0

/-- `char85_to_byte`: the inverse alphabet map, mirroring the `match` in
src/lib.rs line by line (digit ranges, letter ranges, the 23 punctuation
bytes, and the catch-all invalid-character arm). -/
def char85_to_byte (c : Nat) : Except Error Nat :=
  if 48 ≤ c ∧ c ≤ 57 then Except.ok (c - 48)
  else if 65 ≤ c ∧ c ≤ 90 then Except.ok (c - 65 + 10)
  else if 97 ≤ c ∧ c ≤ 122 then Except.ok (c - 97 + 36)
  else if c = 33 then Except.ok 62
  else if c = 35 then Except.ok 63
  else if c = 36 then Except.ok 64
  else if c = 37 then Except.ok 65
  else if c = 38 then Except.ok 66
  else if c = 40 then Except.ok 67
  else if c = 41 then Except.ok 68
  else if c = 42 then Except.ok 69
  else if c = 43 then Except.ok 70
  else if c = 45 then Except.ok 71
  else if c = 59 then Except.ok 72
  else if c = 60 then Except.ok 73
  else if c = 61 then Except.ok 74
  else if c = 62 then Except.ok 75
  else if c = 63 then Except.ok 76
  else if c = 64 then Except.ok 77
  else if c = 94 then Except.ok 78
  else if c = 95 then Except.ok 79
  else if c = 96 then Except.ok 80
  else if c = 123 then Except.ok 81
  else if c = 124 then Except.ok 82
  else if c = 125 then Except.ok 83
  else if c = 126 then Except.ok 84
  else Except.error (Error.InvalidCharacter c)

/-- The five base-85 digit characters the encoder pushes for one 32-bit
chunk value, with the successive divisions and nested remainders exactly as
written in `encode` (85^4 = 52200625, 85^3 = 614125, 85^2 = 7225). -/
def encodeGroup (n : Nat) : List Nat :=
  [byte_to_char85 (n / 52200625),
   byte_to_char85 (n % 52200625 / 614125),
   byte_to_char85 (n % 52200625 % 614125 / 7225),
   byte_to_char85 (n % 52200625 % 614125 % 7225 / 85),
   byte_to_char85 (n % 52200625 % 614125 % 7225 % 85)]

/-- `encode`: each full 4-byte group becomes the 5 digits of its big-endian
32-bit value; 1 to 3 trailing bytes are left-shifted into position with zero
padding (the shift/or loop of src/lib.rs) and only the first
`extra_bytes + 1` digits are pushed. -/
def encode : List Nat → List Nat
  | [] => []
  | b0 :: b1 :: b2 :: b3 :: rest =>
      encodeGroup ((b0 <<< 24) ||| (b1 <<< 16) ||| (b2 <<< 8) ||| b3) ++ encode rest
  | [b0] => (encodeGroup (((b0 <<< 8) <<< 8) <<< 8)).take 2
  | [b0, b1] => (encodeGroup ((((b0 <<< 8) ||| b1) <<< 8) <<< 8)).take 3
  | [b0, b1, b2] =>
      (encodeGroup ((((((b0 <<< 8) ||| b1) <<< 8) ||| b2) <<< 8))).take 4

/-- `decode`: full 5-character chunks first (left to right, each character
through `char85_to_byte` with the first error propagated), then the
remainder of 1 to 4 characters, in which a missing second character is
`UnexpectedEof` and missing third to fifth characters default to the value
126 (`map_or(Ok(126), ...)` in src/lib.rs); `u32` accumulators wrap
`% 2 ^ 32` and each emitted byte is the `as u8` truncation of a shift. -/
def decode : List Nat → Except Error (List Nat)
  | c0 :: c1 :: c2 :: c3 :: c4 :: rest => do
      let d0 ← char85_to_byte c0
      let d1 ← char85_to_byte c1
      let d2 ← char85_to_byte c2
      let d3 ← char85_to_byte c3
      let d4 ← char85_to_byte c4
      let acc := (d0 * 85 ^ 4 + d1 * 85 ^ 3 + d2 * 85 ^ 2 + d3 * 85 + d4) % 2 ^ 32
      let out ← decode rest
      pure ([(acc >>> 24) % 256, (acc >>> 16) % 256, (acc >>> 8) % 256, acc % 256] ++ out)
  | [] => pure []
  | [a] => do
      let _ ← char85_to_byte a
      Except.error Error.UnexpectedEof
  | [a, b] => do
      let d0 ← char85_to_byte a
      let d1 ← char85_to_byte b
      let acc := (d0 * 85 ^ 4 + d1 * 85 ^ 3 + 126 * 85 ^ 2 + 126 * 85 + 126) % 2 ^ 32
      pure [(acc >>> 24) % 256]
  | [a, b, c] => do
      let d0 ← char85_to_byte a
      let d1 ← char85_to_byte b
      let d2 ← char85_to_byte c
      let acc := (d0 * 85 ^ 4 + d1 * 85 ^ 3 + d2 * 85 ^ 2 + 126 * 85 + 126) % 2 ^ 32
      pure [(acc >>> 24) % 256, (acc >>> 16) % 256]
  | [a, b, c, d] => do
      let d0 ← char85_to_byte a
      let d1 ← char85_to_byte b
      let d2 ← char85_to_byte c
      let d3 ← char85_to_byte d
      let acc := (d0 * 85 ^ 4 + d1 * 85 ^ 3 + d2 * 85 ^ 2 + d3 * 85 + 126) % 2 ^ 32
      pure [(acc >>> 24) % 256, (acc >>> 16) % 256, (acc >>> 8) % 256]

/-- The four ASCII whitespace bytes (space, tab, CR, LF) that the crate
documentation says the decoder ignores. -/
def isWs (c : Nat) : Bool :=
  c = 32 || c = 9 || c = 13 || c = 10

/-- Whitespace stripping as described by the specification (the decode
implementation itself performs no such stripping). -/
def stripWs (l : List Nat) : List Nat :=
  l.filter (fun c => !(isWs c))

/-- A byte is an alphabet symbol iff `char85_to_byte` accepts it. -/
def isValid85 (c : Nat) : Bool :=
  (char85_to_byte c).isOk

/-- Total digit read-back: the value of an alphabet symbol, 0 otherwise. -/
def digit85 (c : Nat) : Nat :=
  match char85_to_byte c with
  | Except.ok d => d
  | Except.error _ => 0

/-- The tail-length function f of the encoder length law:
f(0)=0, f(1)=2, f(2)=3, f(3)=4. -/
def extraLen : Nat → Nat
  | 0 => 0
  | 1 => 2
  | 2 => 3
  | _ => 4

/-- The 23 punctuation bytes of the alphabet in their fixed order. -/
def punct23 : List Nat :=
  [33, 35, 36, 37, 38, 40, 41, 42, 43, 45, 59, 60, 61, 62, 63, 64, 94, 95,
   96, 123, 124, 125, 126]

/-- Modelled from the spec (section 4.3, trailing partial group): the bytes
the specification says a trailing group of 2 to 4 characters decodes to,
with each missing trailing digit position taken to hold the value 84.  The
implementation instead uses 126; this definition exists to compare the two. -/
def leftoverBytesSpec84 (cs : List Nat) : List Nat :=
  match cs with
  | [a, b] =>
      [(((digit85 a * 85 ^ 4 + digit85 b * 85 ^ 3 + 84 * 85 ^ 2 + 84 * 85 + 84) % 2 ^ 32) >>> 24) % 256]
  | [a, b, c] =>
      [(((digit85 a * 85 ^ 4 + digit85 b * 85 ^ 3 + digit85 c * 85 ^ 2 + 84 * 85 + 84) % 2 ^ 32) >>> 24) % 256,
       (((digit85 a * 85 ^ 4 + digit85 b * 85 ^ 3 + digit85 c * 85 ^ 2 + 84 * 85 + 84) % 2 ^ 32) >>> 16) % 256]
  | [a, b, c, d] =>
      [(((digit85 a * 85 ^ 4 + digit85 b * 85 ^ 3 + digit85 c * 85 ^ 2 + digit85 d * 85 + 84) % 2 ^ 32) >>> 24) % 256,
       (((digit85 a * 85 ^ 4 + digit85 b * 85 ^ 3 + digit85 c * 85 ^ 2 + digit85 d * 85 + 84) % 2 ^ 32) >>> 16) % 256,
       (((digit85 a * 85 ^ 4 + digit85 b * 85 ^ 3 + digit85 c * 85 ^ 2 + digit85 d * 85 + 84) % 2 ^ 32) >>> 8) % 256]
  | _ => []

/-- The bytes that a trailing group of 2 to 4 characters actually decodes
to in src/lib.rs: missing trailing digit positions hold the value 126. -/
def leftoverBytes126 (cs : List Nat) : List Nat :=
  match cs with
  | [a, b] =>
      [(((digit85 a * 85 ^ 4 + digit85 b * 85 ^ 3 + 126 * 85 ^ 2 + 126 * 85 + 126) % 2 ^ 32) >>> 24) % 256]
  | [a, b, c] =>
      [(((digit85 a * 85 ^ 4 + digit85 b * 85 ^ 3 + digit85 c * 85 ^ 2 + 126 * 85 + 126) % 2 ^ 32) >>> 24) % 256,
       (((digit85 a * 85 ^ 4 + digit85 b * 85 ^ 3 + digit85 c * 85 ^ 2 + 126 * 85 + 126) % 2 ^ 32) >>> 16) % 256]
  | [a, b, c, d] =>
      [(((digit85 a * 85 ^ 4 + digit85 b * 85 ^ 3 + digit85 c * 85 ^ 2 + digit85 d * 85 + 126) % 2 ^ 32) >>> 24) % 256,
       (((digit85 a * 85 ^ 4 + digit85 b * 85 ^ 3 + digit85 c * 85 ^ 2 + digit85 d * 85 + 126) % 2 ^ 32) >>> 16) % 256,
       (((digit85 a * 85 ^ 4 + digit85 b * 85 ^ 3 + digit85 c * 85 ^ 2 + digit85 d * 85 + 126) % 2 ^ 32) >>> 8) % 256]
  | _ => []

/-- The four big-endian bytes a full 5-character group contributes: the
`as u8` truncations of the shifted wrapped accumulator (src/lib.rs
lines 154-157). -/
def groupBytes (d0 d1 d2 d3 d4 : Nat) : List Nat :=
  [(((d0 * 85 ^ 4 + d1 * 85 ^ 3 + d2 * 85 ^ 2 + d3 * 85 + d4) % 2 ^ 32) >>> 24) % 256,
   (((d0 * 85 ^ 4 + d1 * 85 ^ 3 + d2 * 85 ^ 2 + d3 * 85 + d4) % 2 ^ 32) >>> 16) % 256,
   (((d0 * 85 ^ 4 + d1 * 85 ^ 3 + d2 * 85 ^ 2 + d3 * 85 + d4) % 2 ^ 32) >>> 8) % 256,
   ((d0 * 85 ^ 4 + d1 * 85 ^ 3 + d2 * 85 ^ 2 + d3 * 85 + d4) % 2 ^ 32) % 256]

instance {ε α : Type} [DecidableEq ε] [DecidableEq α] : DecidableEq (Except ε α)
  | Except.ok a, Except.ok b =>
      if h : a = b then Decidable.isTrue (congrArg Except.ok h)
      else Decidable.isFalse (fun hh => h (Except.ok.inj hh))
  | Except.ok _, Except.error _ => Decidable.isFalse (fun hh => Except.noConfusion hh)
  | Except.error _, Except.ok _ => Decidable.isFalse (fun hh => Except.noConfusion hh)
  | Except.error e, Except.error f =>
      if h : e = f then Decidable.isTrue (congrArg Except.error h)
      else Decidable.isFalse (fun hh => h (Except.error.inj hh))

/-- Bytes at or above 127 fall through every arm of `char85_to_byte` to the
invalid-character arm. -/
theorem char85_to_byte_big {c : Nat} (h : 127 ≤ c) :
    char85_to_byte c = Except.error (Error.InvalidCharacter c) := by
  unfold char85_to_byte
  repeat rw [if_neg (by omega)]

/-- Bytes below 127 that are not alphabet symbols hit the
invalid-character arm, by exhaustive evaluation. -/
theorem char85_to_byte_small :
    ∀ c : Nat, c < 127 → isValid85 c = false →
      char85_to_byte c = Except.error (Error.InvalidCharacter c) := by
  decide

/-- When a byte is not an alphabet symbol, `char85_to_byte` reports exactly
that byte in its `InvalidCharacter` error. -/
theorem char85_to_byte_of_invalid {c : Nat} (h : isValid85 c = false) :
    char85_to_byte c = Except.error (Error.InvalidCharacter c) := by
  by_cases hc : c < 127
  · exact char85_to_byte_small c hc h
  · exact char85_to_byte_big (by omega)

/-- A valid byte is sent to some digit value. -/
theorem char85_to_byte_of_valid {c : Nat} (h : isValid85 c = true) :
    ∃ d, char85_to_byte c = Except.ok d := by
  unfold isValid85 at h
  cases hc : char85_to_byte c with
  | ok d => exact ⟨d, rfl⟩
  | error e => rw [hc] at h; simp [Except.isOk, Except.toBool] at h

/-- The only error `char85_to_byte` ever produces is `InvalidCharacter`
carrying its own argument. -/
theorem char85_error_eq {c : Nat} {e : Error}
    (hc : char85_to_byte c = Except.error e) : e = Error.InvalidCharacter c := by
  cases hv : isValid85 c with
  | true =>
      obtain ⟨d, hd⟩ := char85_to_byte_of_valid hv
      rw [hd] at hc
      exact absurd hc (by simp)
  | false =>
      rw [char85_to_byte_of_invalid hv] at hc
      exact (Except.error.inj hc).symm

/-- A byte accepted by `char85_to_byte` is valid. -/
theorem isValid85_of_ok {c d : Nat} (h : char85_to_byte c = Except.ok d) :
    isValid85 c = true := by
  unfold isValid85
  rw [h]
  rfl

/-- `digit85` reads back the digit of a valid byte. -/
theorem digit85_of_ok {c d : Nat} (h : char85_to_byte c = Except.ok d) :
    digit85 c = d := by
  unfold digit85
  rw [h]

/-- Decoding a digit character recovers the digit, for all 85 digit values. -/
theorem char85_round (d : Nat) (h : d < 85) :
    char85_to_byte (byte_to_char85 d) = Except.ok d := by
  revert h
  revert d
  decide

/-- Shifting then or-ing under the shifted field is addition. -/
theorem shl_or_eq (a b k : Nat) (h : b < 2 ^ k) :
    (a <<< k) ||| b = a * 2 ^ k + b := by
  rw [Nat.shiftLeft_eq, mul_comm]
  exact (Nat.mul_add_lt_is_or h a).symm

/-- The big-endian chunk value assembled by the encoder from four bytes. -/
theorem decnum_eq (b0 b1 b2 b3 : Nat) (h0 : b0 < 256) (h1 : b1 < 256)
    (h2 : b2 < 256) (h3 : b3 < 256) :
    (b0 <<< 24) ||| (b1 <<< 16) ||| (b2 <<< 8) ||| b3 =
      b0 * 16777216 + b1 * 65536 + b2 * 256 + b3 := by
  rw [Nat.or_assoc, Nat.or_assoc]
  rw [shl_or_eq b2 b3 8 (by omega)]
  rw [shl_or_eq b1 _ 16 (by omega)]
  rw [shl_or_eq b0 _ 24 (by omega)]
  omega

set_option maxRecDepth 4096 in
/-- C6: `char85_to_byte` is total over all 256 byte values: ASCII digits map
to 0-9, uppercase letters to 10-35, lowercase letters to 36-61, the 23
punctuation bytes map in their fixed order to 62-84, and every byte outside
the 85-symbol alphabet (whitespace and non-ASCII bytes included) yields
`InvalidCharacter` carrying that byte. -/
theorem c6_symbol_map_total :
    (∀ c : Nat, c < 256 →
      ((48 ≤ c ∧ c ≤ 57) → char85_to_byte c = Except.ok (c - 48)) ∧
      ((65 ≤ c ∧ c ≤ 90) → char85_to_byte c = Except.ok (c - 65 + 10)) ∧
      ((97 ≤ c ∧ c ≤ 122) → char85_to_byte c = Except.ok (c - 97 + 36)) ∧
      (c ∉ B85_TO_CHAR → char85_to_byte c = Except.error (Error.InvalidCharacter c))) ∧
    (∀ i : Nat, i < 23 → char85_to_byte (punct23.getD i 0) = Except.ok (62 + i)) := by
  constructor
  · decide
  · decide

/-- C6 witness: the map at a lowercase letter, at a punctuation byte and at
an out-of-alphabet byte (comma). -/
theorem c6_symbol_map_total_witness :
    char85_to_byte 97 = Except.ok 36 ∧
    char85_to_byte 126 = Except.ok 84 ∧
    char85_to_byte 44 = Except.error (Error.InvalidCharacter 44) := by
  refine ⟨?_, ?_, ?_⟩
  · have h := (c6_symbol_map_total.1 97 (by decide)).2.2.1 ⟨by decide, by decide⟩
    simpa using h
  · have h := c6_symbol_map_total.2 22 (by decide)
    simpa using h
  · exact (c6_symbol_map_total.1 44 (by decide)).2.2.2 (by decide)

/-- C2: contrary to the crate documentation and the specification, `decode`
performs no whitespace skipping: inserting a line feed into the valid input
"VE" turns a successful decode (giving byte 97) into an
`InvalidCharacter(10)` failure, even though 10 is one of the four
formatting whitespace bytes. -/
theorem c2_whitespace_not_skipped :
    decode [86, 69, 10] = Except.error (Error.InvalidCharacter 10) ∧
    decode [86, 69] = Except.ok [97] ∧
    isWs 10 = true ∧ stripWs [86, 69, 10] = [86, 69] := by
  refine ⟨rfl, rfl, rfl, rfl⟩

/-- C4 counterexample: the input "," has length 1 mod 5 and contains no
whitespace, yet decode fails with `InvalidCharacter(44)` rather than
`UnexpectedEof`, because the lone leftover character is itself examined
first. -/
theorem c4_counterexample :
    ([44] : List Nat).length % 5 = 1 ∧ stripWs [44] = [44] ∧
    decode [44] = Except.error (Error.InvalidCharacter 44) ∧
    decode [44] ≠ Except.error Error.UnexpectedEof := by
  refine ⟨rfl, rfl, rfl, by decide⟩

/-- C3 counterexample: on the input "0Q" (digits 0 and 26) the decoder
emits byte 1, while the specification's rule, with the missing trailing
positions holding the maximum alphabet value 84, yields byte 0: the code
pads with the value 126, not 84. -/
theorem c3_counterexample :
    char85_to_byte 48 = Except.ok 0 ∧ char85_to_byte 81 = Except.ok 26 ∧
    decode [48, 81] = Except.ok [1] ∧
    leftoverBytesSpec84 [48, 81] = [0] ∧
    decode [48, 81] ≠ Except.ok (leftoverBytesSpec84 [48, 81]) := by
  refine ⟨rfl, rfl, rfl, rfl, by decide⟩

/-- C5: the encoded length is `(len b / 4) * 5 + f (len b % 4)` with
f(0)=0, f(1)=2, f(2)=3, f(3)=4: each full 4-byte group yields 5 characters
and a trailing group of n bytes yields n + 1 characters. -/
theorem c5_encode_length (b : List Nat) :
    (encode b).length = b.length / 4 * 5 + extraLen (b.length % 4) := by
  induction b using encode.induct with
  | case1 => rfl
  | case2 b0 b1 b2 b3 rest ih =>
      have h5 : (encodeGroup ((b0 <<< 24) ||| (b1 <<< 16) ||| (b2 <<< 8) ||| b3)).length = 5 := rfl
      have hl : (b0 :: b1 :: b2 :: b3 :: rest).length = rest.length + 4 := by simp
      rw [show encode (b0 :: b1 :: b2 :: b3 :: rest) =
            encodeGroup ((b0 <<< 24) ||| (b1 <<< 16) ||| (b2 <<< 8) ||| b3) ++ encode rest
          from rfl,
        List.length_append, h5, ih, hl,
        show (rest.length + 4) % 4 = rest.length % 4 from by omega,
        show (rest.length + 4) / 4 = rest.length / 4 + 1 from by omega]
      ring
  | case3 b0 => simp [encode, encodeGroup, extraLen]
  | case4 b0 b1 => simp [encode, encodeGroup, extraLen]
  | case5 b0 b1 b2 => simp [encode, encodeGroup, extraLen]

/-- Unfolding a successful full-group decode step. -/
theorem decode_cons5_ok_intro {c0 c1 c2 c3 c4 d0 d1 d2 d3 d4 : Nat}
    {rest tail : List Nat}
    (h0 : char85_to_byte c0 = Except.ok d0) (h1 : char85_to_byte c1 = Except.ok d1)
    (h2 : char85_to_byte c2 = Except.ok d2) (h3 : char85_to_byte c3 = Except.ok d3)
    (h4 : char85_to_byte c4 = Except.ok d4) (hr : decode rest = Except.ok tail) :
    decode (c0 :: c1 :: c2 :: c3 :: c4 :: rest) =
      Except.ok (groupBytes d0 d1 d2 d3 d4 ++ tail) := by
  simp [decode, groupBytes, h0, h1, h2, h3, h4, hr, Bind.bind, Except.bind,
    pure, Except.pure]

/-- A successful full-group decode step decomposes into five digit lookups
and a successful decode of the rest. -/
theorem decode_cons5_ok_elim {c0 c1 c2 c3 c4 : Nat} {rest out : List Nat}
    (h : decode (c0 :: c1 :: c2 :: c3 :: c4 :: rest) = Except.ok out) :
    ∃ d0 d1 d2 d3 d4 tail,
      char85_to_byte c0 = Except.ok d0 ∧ char85_to_byte c1 = Except.ok d1 ∧
      char85_to_byte c2 = Except.ok d2 ∧ char85_to_byte c3 = Except.ok d3 ∧
      char85_to_byte c4 = Except.ok d4 ∧ decode rest = Except.ok tail ∧
      out = groupBytes d0 d1 d2 d3 d4 ++ tail := by
  cases h0 : char85_to_byte c0 with
  | error e => simp [decode, h0, Bind.bind, Except.bind] at h
  | ok d0 =>
  cases h1 : char85_to_byte c1 with
  | error e => simp [decode, h0, h1, Bind.bind, Except.bind] at h
  | ok d1 =>
  cases h2 : char85_to_byte c2 with
  | error e => simp [decode, h0, h1, h2, Bind.bind, Except.bind] at h
  | ok d2 =>
  cases h3 : char85_to_byte c3 with
  | error e => simp [decode, h0, h1, h2, h3, Bind.bind, Except.bind] at h
  | ok d3 =>
  cases h4 : char85_to_byte c4 with
  | error e => simp [decode, h0, h1, h2, h3, h4, Bind.bind, Except.bind] at h
  | ok d4 =>
  cases hr : decode rest with
  | error e => simp [decode, h0, h1, h2, h3, h4, hr, Bind.bind, Except.bind] at h
  | ok tail =>
      refine ⟨d0, d1, d2, d3, d4, tail, rfl, rfl, rfl, rfl, rfl, rfl, ?_⟩
      rw [decode_cons5_ok_intro h0 h1 h2 h3 h4 hr] at h
      exact (Except.ok.inj h).symm

/-- Decoding a single leftover character never succeeds. -/
theorem decode_single_not_ok {a : Nat} {out : List Nat}
    (h : decode [a] = Except.ok out) : False := by
  cases ha : char85_to_byte a with
  | error e => simp [decode, ha, Bind.bind, Except.bind] at h
  | ok d => simp [decode, ha, Bind.bind, Except.bind] at h

/-- Decoding a single valid leftover character is the end-of-input error. -/
theorem decode_single_eof {a d : Nat} (ha : char85_to_byte a = Except.ok d) :
    decode [a] = Except.error Error.UnexpectedEof := by
  simp [decode, ha, Bind.bind, Except.bind]

/-- Unfolding a successful two-character leftover decode. -/
theorem decode_pair_ok_intro {a b d0 d1 : Nat}
    (ha : char85_to_byte a = Except.ok d0) (hb : char85_to_byte b = Except.ok d1) :
    decode [a, b] = Except.ok (leftoverBytes126 [a, b]) := by
  simp [decode, leftoverBytes126, ha, hb, digit85_of_ok ha, digit85_of_ok hb,
    Bind.bind, Except.bind, pure, Except.pure]

/-- A successful two-character leftover decode decomposes into two digit
lookups, and yields the 126-padded trailing bytes. -/
theorem decode_pair_ok_elim {a b : Nat} {out : List Nat}
    (h : decode [a, b] = Except.ok out) :
    isValid85 a = true ∧ isValid85 b = true ∧ out = leftoverBytes126 [a, b] := by
  cases ha : char85_to_byte a with
  | error e => simp [decode, ha, Bind.bind, Except.bind] at h
  | ok d0 =>
  cases hb : char85_to_byte b with
  | error e => simp [decode, ha, hb, Bind.bind, Except.bind] at h
  | ok d1 =>
      rw [decode_pair_ok_intro ha hb] at h
      exact ⟨isValid85_of_ok ha, isValid85_of_ok hb, (Except.ok.inj h).symm⟩

/-- Unfolding a successful three-character leftover decode. -/
theorem decode_triple_ok_intro {a b c d0 d1 d2 : Nat}
    (ha : char85_to_byte a = Except.ok d0) (hb : char85_to_byte b = Except.ok d1)
    (hc : char85_to_byte c = Except.ok d2) :
    decode [a, b, c] = Except.ok (leftoverBytes126 [a, b, c]) := by
  simp [decode, leftoverBytes126, ha, hb, hc, digit85_of_ok ha,
    digit85_of_ok hb, digit85_of_ok hc, Bind.bind, Except.bind, pure, Except.pure]

/-- A successful three-character leftover decode decomposes into three digit
lookups, and yields the 126-padded trailing bytes. -/
theorem decode_triple_ok_elim {a b c : Nat} {out : List Nat}
    (h : decode [a, b, c] = Except.ok out) :
    isValid85 a = true ∧ isValid85 b = true ∧ isValid85 c = true ∧
      out = leftoverBytes126 [a, b, c] := by
  cases ha : char85_to_byte a with
  | error e => simp [decode, ha, Bind.bind, Except.bind] at h
  | ok d0 =>
  cases hb : char85_to_byte b with
  | error e => simp [decode, ha, hb, Bind.bind, Except.bind] at h
  | ok d1 =>
  cases hc : char85_to_byte c with
  | error e => simp [decode, ha, hb, hc, Bind.bind, Except.bind] at h
  | ok d2 =>
      rw [decode_triple_ok_intro ha hb hc] at h
      exact ⟨isValid85_of_ok ha, isValid85_of_ok hb, isValid85_of_ok hc,
        (Except.ok.inj h).symm⟩

/-- Unfolding a successful four-character leftover decode. -/
theorem decode_quad_ok_intro {a b c d d0 d1 d2 d3 : Nat}
    (ha : char85_to_byte a = Except.ok d0) (hb : char85_to_byte b = Except.ok d1)
    (hc : char85_to_byte c = Except.ok d2) (hd : char85_to_byte d = Except.ok d3) :
    decode [a, b, c, d] = Except.ok (leftoverBytes126 [a, b, c, d]) := by
  simp [decode, leftoverBytes126, ha, hb, hc, hd, digit85_of_ok ha,
    digit85_of_ok hb, digit85_of_ok hc, digit85_of_ok hd, Bind.bind,
    Except.bind, pure, Except.pure]

/-- A successful four-character leftover decode decomposes into four digit
lookups, and yields the 126-padded trailing bytes. -/
theorem decode_quad_ok_elim {a b c d : Nat} {out : List Nat}
    (h : decode [a, b, c, d] = Except.ok out) :
    isValid85 a = true ∧ isValid85 b = true ∧ isValid85 c = true ∧
      isValid85 d = true ∧ out = leftoverBytes126 [a, b, c, d] := by
  cases ha : char85_to_byte a with
  | error e => simp [decode, ha, Bind.bind, Except.bind] at h
  | ok d0 =>
  cases hb : char85_to_byte b with
  | error e => simp [decode, ha, hb, Bind.bind, Except.bind] at h
  | ok d1 =>
  cases hc : char85_to_byte c with
  | error e => simp [decode, ha, hb, hc, Bind.bind, Except.bind] at h
  | ok d2 =>
  cases hd : char85_to_byte d with
  | error e => simp [decode, ha, hb, hc, hd, Bind.bind, Except.bind] at h
  | ok d3 =>
      rw [decode_quad_ok_intro ha hb hc hd] at h
      exact ⟨isValid85_of_ok ha, isValid85_of_ok hb, isValid85_of_ok hc,
        isValid85_of_ok hd, (Except.ok.inj h).symm⟩

/-- A successful decode produces `len/5*4 + (len%5 - 1)` bytes (truncated
subtraction realises the max-with-zero). -/
theorem decode_ok_length : ∀ l out : List Nat, decode l = Except.ok out →
    out.length = l.length / 5 * 4 + (l.length % 5 - 1) := by
  intro l
  induction l using decode.induct with
  | case1 c0 c1 c2 c3 c4 rest ih =>
      intro out h
      obtain ⟨d0, d1, d2, d3, d4, tail, _, _, _, _, _, hr, hout⟩ :=
        decode_cons5_ok_elim h
      subst hout
      have ht := ih tail hr
      have hg : (groupBytes d0 d1 d2 d3 d4).length = 4 := rfl
      have hlen : (c0 :: c1 :: c2 :: c3 :: c4 :: rest).length = rest.length + 5 := by
        simp
      rw [hlen, List.length_append, hg, ht]
      omega
  | case2 =>
      intro out h
      simp [decode, pure, Except.pure] at h
      subst h
      rfl
  | case3 a =>
      intro out h
      exact (decode_single_not_ok h).elim
  | case4 a b =>
      intro out h
      obtain ⟨_, _, hout⟩ := decode_pair_ok_elim h
      subst hout
      simp [leftoverBytes126]
  | case5 a b c =>
      intro out h
      obtain ⟨_, _, _, hout⟩ := decode_triple_ok_elim h
      subst hout
      simp [leftoverBytes126]
  | case6 a b c d =>
      intro out h
      obtain ⟨_, _, _, _, hout⟩ := decode_quad_ok_elim h
      subst hout
      simp [leftoverBytes126]

/-- A successful decode input consists of alphabet symbols only. -/
theorem decode_ok_all_valid : ∀ l out : List Nat, decode l = Except.ok out →
    ∀ c ∈ l, isValid85 c = true := by
  intro l
  induction l using decode.induct with
  | case1 c0 c1 c2 c3 c4 rest ih =>
      intro out h c hc
      obtain ⟨d0, d1, d2, d3, d4, tail, h0, h1, h2, h3, h4, hr, _⟩ :=
        decode_cons5_ok_elim h
      simp only [List.mem_cons] at hc
      rcases hc with rfl | rfl | rfl | rfl | rfl | hc
      · exact isValid85_of_ok h0
      · exact isValid85_of_ok h1
      · exact isValid85_of_ok h2
      · exact isValid85_of_ok h3
      · exact isValid85_of_ok h4
      · exact ih tail hr c hc
  | case2 =>
      intro out h c hc
      simp at hc
  | case3 a =>
      intro out h
      exact (decode_single_not_ok h).elim
  | case4 a b =>
      intro out h c hc
      obtain ⟨hva, hvb, _⟩ := decode_pair_ok_elim h
      simp only [List.mem_cons] at hc
      rcases hc with rfl | rfl | hc
      · exact hva
      · exact hvb
      · simp at hc
  | case5 a b cc =>
      intro out h c hc
      obtain ⟨hva, hvb, hvc, _⟩ := decode_triple_ok_elim h
      simp only [List.mem_cons] at hc
      rcases hc with rfl | rfl | rfl | hc
      · exact hva
      · exact hvb
      · exact hvc
      · simp at hc
  | case6 a b cc d =>
      intro out h c hc
      obtain ⟨hva, hvb, hvc, hvd, _⟩ := decode_quad_ok_elim h
      simp only [List.mem_cons] at hc
      rcases hc with rfl | rfl | rfl | rfl | hc
      · exact hva
      · exact hvb
      · exact hvc
      · exact hvd
      · simp at hc

/-- Alphabet symbols are never whitespace. -/
theorem isWs_eq_false_of_valid {c : Nat} (h : isValid85 c = true) :
    isWs c = false := by
  by_contra hw
  have hws : isWs c = true := by
    cases hx : isWs c
    · exact absurd hx hw
    · rfl
  unfold isWs at hws
  simp only [Bool.or_eq_true, decide_eq_true_eq] at hws
  rcases hws with ((rfl | rfl) | rfl) | rfl
  · exact absurd h (by decide)
  · exact absurd h (by decide)
  · exact absurd h (by decide)
  · exact absurd h (by decide)

/-- Whitespace stripping is the identity on all-alphabet inputs. -/
theorem stripWs_eq_self_of_valid {l : List Nat}
    (h : ∀ c ∈ l, isValid85 c = true) : stripWs l = l := by
  unfold stripWs
  rw [List.filter_eq_self]
  intro a ha
  rw [isWs_eq_false_of_valid (h a ha)]
  rfl

/-- C9: whenever decode succeeds, the output length is
`floor(n/5)*4 + max(0, n%5 - 1)` where n is the input length after
whitespace stripping; successful inputs contain no whitespace at all, so
the stripped length is the raw length (truncated Nat subtraction realises
the max with zero). -/
theorem c9_decode_output_length (l out : List Nat)
    (h : decode l = Except.ok out) :
    stripWs l = l ∧
    out.length = (stripWs l).length / 5 * 4 + ((stripWs l).length % 5 - 1) := by
  have hs := stripWs_eq_self_of_valid (decode_ok_all_valid l out h)
  refine ⟨hs, ?_⟩
  rw [hs]
  exact decode_ok_length l out h

/-- C9 witness: the input "VPRomVE" (7 characters) decodes to 5 bytes,
and 7/5*4 + (7%5 - 1) = 5. -/
theorem c9_decode_output_length_witness :
    stripWs [86, 80, 82, 111, 109, 86, 69] = [86, 80, 82, 111, 109, 86, 69] ∧
    ([97, 97, 97, 97, 97] : List Nat).length =
      (stripWs [86, 80, 82, 111, 109, 86, 69]).length / 5 * 4 +
        ((stripWs [86, 80, 82, 111, 109, 86, 69]).length % 5 - 1) :=
  c9_decode_output_length [86, 80, 82, 111, 109, 86, 69] [97, 97, 97, 97, 97] rfl

/-- C4 (amended): every decode input whose length is congruent to 1 mod 5
fails; when every byte of the input is an alphabet symbol the failure is
`UnexpectedEof` (an invalid byte, which whitespace also is, can instead win
with `InvalidCharacter`, as the counterexample shows). -/
theorem c4_len_one_mod5_fails : ∀ l : List Nat, l.length % 5 = 1 →
    (∃ e, decode l = Except.error e) ∧
    ((∀ c ∈ l, isValid85 c = true) →
      decode l = Except.error Error.UnexpectedEof) := by
  intro l
  induction l using decode.induct with
  | case1 c0 c1 c2 c3 c4 rest ih =>
      intro h
      have hr : rest.length % 5 = 1 := by
        simp only [List.length_cons] at h
        omega
      constructor
      · cases hd : decode (c0 :: c1 :: c2 :: c3 :: c4 :: rest) with
        | error e => exact ⟨e, rfl⟩
        | ok out =>
            obtain ⟨d0, d1, d2, d3, d4, tail, _, _, _, _, _, htl, _⟩ :=
              decode_cons5_ok_elim hd
            obtain ⟨e, he⟩ := (ih hr).1
            rw [he] at htl
            exact absurd htl (by simp)
      · intro hv
        obtain ⟨d0, h0⟩ := char85_to_byte_of_valid (hv c0 (by simp))
        obtain ⟨d1, h1⟩ := char85_to_byte_of_valid (hv c1 (by simp))
        obtain ⟨d2, h2⟩ := char85_to_byte_of_valid (hv c2 (by simp))
        obtain ⟨d3, h3⟩ := char85_to_byte_of_valid (hv c3 (by simp))
        obtain ⟨d4, h4⟩ := char85_to_byte_of_valid (hv c4 (by simp))
        have he := (ih hr).2 (fun c hc => hv c (by simp [hc]))
        simp [decode, h0, h1, h2, h3, h4, he, Bind.bind, Except.bind]
  | case2 =>
      intro h
      simp at h
  | case3 a =>
      intro _
      constructor
      · cases hd : decode [a] with
        | error e => exact ⟨e, rfl⟩
        | ok out => exact (decode_single_not_ok hd).elim
      · intro hv
        obtain ⟨d, hd⟩ := char85_to_byte_of_valid (hv a (by simp))
        exact decode_single_eof hd
  | case4 a b =>
      intro h
      simp at h
  | case5 a b c =>
      intro h
      simp at h
  | case6 a b c d =>
      intro h
      simp at h

/-- C4 witness: the all-alphabet input "V" has length 1 mod 5 and fails
with `UnexpectedEof`. -/
theorem c4_len_one_mod5_fails_witness :
    decode [86] = Except.error Error.UnexpectedEof :=
  (c4_len_one_mod5_fails [86] rfl).2 (by decide)

/-- C10: decode succeeds on every all-alphabet input whose length is not
1 mod 5, even on non-canonical groups whose digit value exceeds the 32-bit
range, and each full 5-character group contributes the four big-endian
bytes of its digit value reduced modulo 2^32 (`groupBytes`). -/
theorem c10_wrapping_groups :
    (∀ l : List Nat, (∀ c ∈ l, isValid85 c = true) → l.length % 5 ≠ 1 →
      ∃ out, decode l = Except.ok out) ∧
    (∀ c0 c1 c2 c3 c4 d0 d1 d2 d3 d4 : Nat, ∀ rest tail : List Nat,
      char85_to_byte c0 = Except.ok d0 → char85_to_byte c1 = Except.ok d1 →
      char85_to_byte c2 = Except.ok d2 → char85_to_byte c3 = Except.ok d3 →
      char85_to_byte c4 = Except.ok d4 → decode rest = Except.ok tail →
      decode (c0 :: c1 :: c2 :: c3 :: c4 :: rest) =
        Except.ok (groupBytes d0 d1 d2 d3 d4 ++ tail)) := by
  constructor
  · intro l
    induction l using decode.induct with
    | case1 c0 c1 c2 c3 c4 rest ih =>
        intro hv h
        obtain ⟨d0, h0⟩ := char85_to_byte_of_valid (hv c0 (by simp))
        obtain ⟨d1, h1⟩ := char85_to_byte_of_valid (hv c1 (by simp))
        obtain ⟨d2, h2⟩ := char85_to_byte_of_valid (hv c2 (by simp))
        obtain ⟨d3, h3⟩ := char85_to_byte_of_valid (hv c3 (by simp))
        obtain ⟨d4, h4⟩ := char85_to_byte_of_valid (hv c4 (by simp))
        have hr : rest.length % 5 ≠ 1 := by
          simp only [List.length_cons] at h
          omega
        obtain ⟨tail, htl⟩ := ih (fun c hc => hv c (by simp [hc])) hr
        exact ⟨_, decode_cons5_ok_intro h0 h1 h2 h3 h4 htl⟩
    | case2 =>
        intro _ _
        exact ⟨[], rfl⟩
    | case3 a =>
        intro _ h
        simp at h
    | case4 a b =>
        intro hv _
        obtain ⟨d0, ha⟩ := char85_to_byte_of_valid (hv a (by simp))
        obtain ⟨d1, hb⟩ := char85_to_byte_of_valid (hv b (by simp))
        exact ⟨_, decode_pair_ok_intro ha hb⟩
    | case5 a b c =>
        intro hv _
        obtain ⟨d0, ha⟩ := char85_to_byte_of_valid (hv a (by simp))
        obtain ⟨d1, hb⟩ := char85_to_byte_of_valid (hv b (by simp))
        obtain ⟨d2, hc⟩ := char85_to_byte_of_valid (hv c (by simp))
        exact ⟨_, decode_triple_ok_intro ha hb hc⟩
    | case6 a b c d =>
        intro hv _
        obtain ⟨d0, ha⟩ := char85_to_byte_of_valid (hv a (by simp))
        obtain ⟨d1, hb⟩ := char85_to_byte_of_valid (hv b (by simp))
        obtain ⟨d2, hc⟩ := char85_to_byte_of_valid (hv c (by simp))
        obtain ⟨d3, hd⟩ := char85_to_byte_of_valid (hv d (by simp))
        exact ⟨_, decode_quad_ok_intro ha hb hc hd⟩
  · intro c0 c1 c2 c3 c4 d0 d1 d2 d3 d4 rest tail h0 h1 h2 h3 h4 hr
    exact decode_cons5_ok_intro h0 h1 h2 h3 h4 hr

/-- C10 witness: "~~~~~" is all-alphabet, its digit value 84*(85^4+85^3+
85^2+85+1) = 4437053124 exceeds 2^32-1 = 4294967296-1, and it decodes to
the bytes of 4437053124 mod 2^32 = 142085828, namely 8, 120, 14, 196. -/
theorem c10_wrapping_groups_witness :
    decode [126, 126, 126, 126, 126] = Except.ok [8, 120, 14, 196] ∧
    (∀ c ∈ ([126, 126, 126, 126, 126] : List Nat), isValid85 c = true) ∧
    84 * 85 ^ 4 + 84 * 85 ^ 3 + 84 * 85 ^ 2 + 84 * 85 + 84 = 4437053124 ∧
    4437053124 % 2 ^ 32 = 142085828 := by
  refine ⟨?_, by decide, by norm_num, by norm_num⟩
  have h := c10_wrapping_groups.2 126 126 126 126 126 84 84 84 84 84 [] []
    rfl rfl rfl rfl rfl rfl
  exact h.trans (by decide)

/-- C8: decode fails fast on the first invalid byte scanning left to right:
whenever every byte before position i is an alphabet symbol and the byte at
position i is not, decode fails with `InvalidCharacter` carrying exactly
that byte, regardless of what follows (missing or invalid later characters
included). -/
theorem c8_fail_fast :
    ∀ (pre : List Nat) (c : Nat) (post : List Nat),
      (∀ x ∈ pre, isValid85 x = true) → isValid85 c = false →
      decode (pre ++ c :: post) = Except.error (Error.InvalidCharacter c) := by
  have key : ∀ (n : Nat) (pre : List Nat) (c : Nat) (post : List Nat),
      pre.length < n → (∀ x ∈ pre, isValid85 x = true) → isValid85 c = false →
      decode (pre ++ c :: post) = Except.error (Error.InvalidCharacter c) := by
    intro n
    induction n with
    | zero =>
        intro pre c post hlen _ _
        omega
    | succ n ih =>
        intro pre c post hlen hpre hc
        have hcerr := char85_to_byte_of_invalid hc
        rcases pre with _ | ⟨p0, _ | ⟨p1, _ | ⟨p2, _ | ⟨p3, _ | ⟨p4, tl⟩⟩⟩⟩⟩
        · rcases post with _ | ⟨q0, _ | ⟨q1, _ | ⟨q2, _ | ⟨q3, rest⟩⟩⟩⟩ <;>
            simp [decode, hcerr, Bind.bind, Except.bind]
        · obtain ⟨e0, hp0⟩ := char85_to_byte_of_valid (hpre p0 (by simp))
          rcases post with _ | ⟨q0, _ | ⟨q1, _ | ⟨q2, rest⟩⟩⟩ <;>
            simp [decode, hp0, hcerr, Bind.bind, Except.bind]
        · obtain ⟨e0, hp0⟩ := char85_to_byte_of_valid (hpre p0 (by simp))
          obtain ⟨e1, hp1⟩ := char85_to_byte_of_valid (hpre p1 (by simp))
          rcases post with _ | ⟨q0, _ | ⟨q1, rest⟩⟩ <;>
            simp [decode, hp0, hp1, hcerr, Bind.bind, Except.bind]
        · obtain ⟨e0, hp0⟩ := char85_to_byte_of_valid (hpre p0 (by simp))
          obtain ⟨e1, hp1⟩ := char85_to_byte_of_valid (hpre p1 (by simp))
          obtain ⟨e2, hp2⟩ := char85_to_byte_of_valid (hpre p2 (by simp))
          rcases post with _ | ⟨q0, rest⟩ <;>
            simp [decode, hp0, hp1, hp2, hcerr, Bind.bind, Except.bind]
        · obtain ⟨e0, hp0⟩ := char85_to_byte_of_valid (hpre p0 (by simp))
          obtain ⟨e1, hp1⟩ := char85_to_byte_of_valid (hpre p1 (by simp))
          obtain ⟨e2, hp2⟩ := char85_to_byte_of_valid (hpre p2 (by simp))
          obtain ⟨e3, hp3⟩ := char85_to_byte_of_valid (hpre p3 (by simp))
          simp [decode, hp0, hp1, hp2, hp3, hcerr, Bind.bind, Except.bind]
        · obtain ⟨e0, hp0⟩ := char85_to_byte_of_valid (hpre p0 (by simp))
          obtain ⟨e1, hp1⟩ := char85_to_byte_of_valid (hpre p1 (by simp))
          obtain ⟨e2, hp2⟩ := char85_to_byte_of_valid (hpre p2 (by simp))
          obtain ⟨e3, hp3⟩ := char85_to_byte_of_valid (hpre p3 (by simp))
          obtain ⟨e4, hp4⟩ := char85_to_byte_of_valid (hpre p4 (by simp))
          have hlen2 : tl.length < n := by
            simp only [List.length_cons] at hlen
            omega
          have htail := ih tl c post hlen2 (fun x hx => hpre x (by simp [hx])) hc
          have hshape : (p0 :: p1 :: p2 :: p3 :: p4 :: tl) ++ c :: post =
              p0 :: p1 :: p2 :: p3 :: p4 :: (tl ++ c :: post) := by simp
          rw [hshape]
          simp [decode, hp0, hp1, hp2, hp3, hp4, htail, Bind.bind, Except.bind]
  intro pre c post hpre hc
  exact key (pre.length + 1) pre c post (by omega) hpre hc

/-- C8 witness: the concrete example of the specification, decode("VE,")
fails with InvalidCharacter on the comma. -/
theorem c8_fail_fast_witness :
    decode [86, 69, 44] = Except.error (Error.InvalidCharacter 44) := by
  have h := c8_fail_fast [86, 69] 44 [] (by decide) (by decide)
  simpa using h

/-- Dropping past an initial segment of known length. -/
theorem drop_append_front {A l2 : List Nat} {k m : Nat} (hA : A.length = m) :
    (A ++ l2).drop (m + k) = l2.drop k := by
  rw [← List.drop_drop, List.drop_left' hA]

/-- The trailing bytes of a 2-to-4 character leftover group are always
one fewer than its characters. -/
theorem leftoverBytes126_length {cs : List Nat} (h2 : 2 ≤ cs.length)
    (h4 : cs.length ≤ 4) :
    (leftoverBytes126 cs).length = cs.length - 1 := by
  rcases cs with _ | ⟨a, _ | ⟨b, _ | ⟨c, _ | ⟨d, _ | ⟨e, tl⟩⟩⟩⟩⟩
  · simp at h2
  · simp at h2
  · simp [leftoverBytes126]
  · simp [leftoverBytes126]
  · simp [leftoverBytes126]
  · simp only [List.length_cons] at h4
    omega

/-- On a successful decode, the bytes past the full groups are exactly the
126-padded trailing-group bytes. -/
theorem decode_tail_bytes : ∀ l out : List Nat, decode l = Except.ok out →
    2 ≤ l.length % 5 →
    out.drop (l.length / 5 * 4) = leftoverBytes126 (l.drop (l.length / 5 * 5)) := by
  intro l
  induction l using decode.induct with
  | case1 c0 c1 c2 c3 c4 rest ih =>
      intro out h hk
      obtain ⟨d0, d1, d2, d3, d4, tail, _, _, _, _, _, hr, hout⟩ :=
        decode_cons5_ok_elim h
      subst hout
      have hk2 : 2 ≤ rest.length % 5 := by
        simp only [List.length_cons] at hk
        omega
      have hlen : (c0 :: c1 :: c2 :: c3 :: c4 :: rest).length = rest.length + 5 := by
        simp
      rw [hlen,
        show (rest.length + 5) / 5 * 4 = 4 + rest.length / 5 * 4 from by omega,
        show (rest.length + 5) / 5 * 5 = 5 + rest.length / 5 * 5 from by omega,
        drop_append_front (show (groupBytes d0 d1 d2 d3 d4).length = 4 from rfl),
        show (c0 :: c1 :: c2 :: c3 :: c4 :: rest) = [c0, c1, c2, c3, c4] ++ rest
          from rfl,
        drop_append_front (show ([c0, c1, c2, c3, c4] : List Nat).length = 5 from rfl)]
      exact ih tail hr hk2
  | case2 =>
      intro out h hk
      simp at hk
  | case3 a =>
      intro out h hk
      exact (decode_single_not_ok h).elim
  | case4 a b =>
      intro out h hk
      obtain ⟨_, _, hout⟩ := decode_pair_ok_elim h
      subst hout
      simp
  | case5 a b c =>
      intro out h hk
      obtain ⟨_, _, _, hout⟩ := decode_triple_ok_elim h
      subst hout
      simp
  | case6 a b c d =>
      intro out h hk
      obtain ⟨_, _, _, _, hout⟩ := decode_quad_ok_elim h
      subst hout
      simp

/-- C3 (amended): on any successful decode whose trailing partial group has
2, 3, or 4 leftover characters, the decoder emits exactly
`leftover_count - 1` trailing bytes, and they are the most-significant
bytes of the 32-bit full-group formula with each missing trailing digit
position taken to hold the value 126 (not 84 as the specification states). -/
theorem c3_leftover_126_padding (l out : List Nat)
    (h : decode l = Except.ok out) (hk : 2 ≤ l.length % 5) :
    out.drop (l.length / 5 * 4) = leftoverBytes126 (l.drop (l.length / 5 * 5)) ∧
    (out.drop (l.length / 5 * 4)).length = l.length % 5 - 1 := by
  have hmain := decode_tail_bytes l out h hk
  refine ⟨hmain, ?_⟩
  rw [hmain]
  have hdl : (l.drop (l.length / 5 * 5)).length = l.length % 5 := by
    rw [List.length_drop]
    omega
  rw [leftoverBytes126_length (by rw [hdl]; exact hk) (by rw [hdl]; omega), hdl]

/-- Every digit value below 85 is looked up inside the table. -/
theorem byte_to_char85_mem : ∀ d : Nat, d < 85 → byte_to_char85 d ∈ B85_TO_CHAR := by
  decide

/-- The five base-85 digits of a 32-bit value are all below 85 (the first
because 2^32 < 85^5). -/
theorem group_digits_lt (n : Nat) (h : n < 4294967296) :
    n / 52200625 < 85 ∧ n % 52200625 / 614125 < 85 ∧
    n % 52200625 % 614125 / 7225 < 85 ∧
    n % 52200625 % 614125 % 7225 / 85 < 85 ∧
    n % 52200625 % 614125 % 7225 % 85 < 85 := by
  omega

/-- All five characters of a full-group encoding are alphabet symbols. -/
theorem encodeGroup_mem {n : Nat} (h : n < 4294967296) :
    ∀ c ∈ encodeGroup n, c ∈ B85_TO_CHAR := by
  obtain ⟨l0, l1, l2, l3, l4⟩ := group_digits_lt n h
  intro c hc
  simp only [encodeGroup, List.mem_cons, List.not_mem_nil, or_false] at hc
  rcases hc with rfl | rfl | rfl | rfl | rfl
  · exact byte_to_char85_mem _ l0
  · exact byte_to_char85_mem _ l1
  · exact byte_to_char85_mem _ l2
  · exact byte_to_char85_mem _ l3
  · exact byte_to_char85_mem _ l4

/-- C7: every character of an encoded byte buffer is one of the 85 alphabet
symbols: every base-85 digit the encoder computes is below 85, so every
table lookup is in bounds. -/
theorem c7_alphabet_closure : ∀ b : List Nat, (∀ x ∈ b, x < 256) →
    ∀ c ∈ encode b, c ∈ B85_TO_CHAR := by
  intro b
  induction b using encode.induct with
  | case1 =>
      intro _ c hc
      simp [encode] at hc
  | case2 b0 b1 b2 b3 rest ih =>
      intro hb c hc
      rw [show encode (b0 :: b1 :: b2 :: b3 :: rest) =
            encodeGroup ((b0 <<< 24) ||| (b1 <<< 16) ||| (b2 <<< 8) ||| b3) ++
              encode rest from rfl] at hc
      rcases List.mem_append.mp hc with hc | hc
      · have hq := decnum_eq b0 b1 b2 b3 (hb b0 (by simp)) (hb b1 (by simp))
          (hb b2 (by simp)) (hb b3 (by simp))
        have hlt : (b0 <<< 24) ||| (b1 <<< 16) ||| (b2 <<< 8) ||| b3 < 4294967296 := by
          have e0 := hb b0 (by simp)
          have e1 := hb b1 (by simp)
          have e2 := hb b2 (by simp)
          have e3 := hb b3 (by simp)
          omega
        exact encodeGroup_mem hlt c hc
      · exact ih (fun x hx => hb x (by simp [hx])) c hc
  | case3 b0 =>
      intro hb c hc
      rw [show encode [b0] = (encodeGroup (((b0 <<< 8) <<< 8) <<< 8)).take 2
          from rfl] at hc
      have hn : ((b0 <<< 8) <<< 8) <<< 8 = b0 * 16777216 := by
        rw [Nat.shiftLeft_eq, Nat.shiftLeft_eq, Nat.shiftLeft_eq]
        omega
      have hlt : ((b0 <<< 8) <<< 8) <<< 8 < 4294967296 := by
        have e0 := hb b0 (by simp)
        omega
      exact encodeGroup_mem hlt c (List.mem_of_mem_take hc)
  | case4 b0 b1 =>
      intro hb c hc
      rw [show encode [b0, b1] =
            (encodeGroup ((((b0 <<< 8) ||| b1) <<< 8) <<< 8)).take 3 from rfl] at hc
      have hn : (((b0 <<< 8) ||| b1) <<< 8) <<< 8 = (b0 * 256 + b1) * 65536 := by
        rw [shl_or_eq b0 b1 8 (by have := hb b1 (by simp); omega),
          Nat.shiftLeft_eq, Nat.shiftLeft_eq]
        omega
      have hlt : (((b0 <<< 8) ||| b1) <<< 8) <<< 8 < 4294967296 := by
        have e0 := hb b0 (by simp)
        have e1 := hb b1 (by simp)
        omega
      exact encodeGroup_mem hlt c (List.mem_of_mem_take hc)
  | case5 b0 b1 b2 =>
      intro hb c hc
      rw [show encode [b0, b1, b2] =
            (encodeGroup ((((((b0 <<< 8) ||| b1) <<< 8) ||| b2) <<< 8))).take 4
          from rfl] at hc
      have hn : ((((((b0 <<< 8) ||| b1) <<< 8) ||| b2) <<< 8)) =
          ((b0 * 256 + b1) * 256 + b2) * 256 := by
        rw [shl_or_eq b0 b1 8 (by have := hb b1 (by simp); omega)]
        rw [shl_or_eq _ b2 8 (by have := hb b2 (by simp); omega)]
        simp only [Nat.shiftLeft_eq]
        omega
      have hlt : ((((((b0 <<< 8) ||| b1) <<< 8) ||| b2) <<< 8)) < 4294967296 := by
        have e0 := hb b0 (by simp)
        have e1 := hb b1 (by simp)
        have e2 := hb b2 (by simp)
        omega
      exact encodeGroup_mem hlt c (List.mem_of_mem_take hc)

/-- C7 witness: the characters of encode([97]) are in the table. -/
theorem c7_alphabet_closure_witness :
    86 ∈ B85_TO_CHAR ∧ 86 ∈ encode [97] :=
  ⟨c7_alphabet_closure [97] (by decide) 86 (by decide), by decide⟩

/-- The base-85 digit decomposition of the encoder reassembles to its
input value. -/
theorem group_acc_eq (n : Nat) (h : n < 4294967296) :
    n / 52200625 * 85 ^ 4 + n % 52200625 / 614125 * 85 ^ 3 +
      n % 52200625 % 614125 / 7225 * 85 ^ 2 +
      n % 52200625 % 614125 % 7225 / 85 * 85 +
      n % 52200625 % 614125 % 7225 % 85 = n := by
  have e4 : (85 : Nat) ^ 4 = 52200625 := by norm_num
  have e3 : (85 : Nat) ^ 3 = 614125 := by norm_num
  have e2 : (85 : Nat) ^ 2 = 7225 := by norm_num
  rw [e4, e3, e2]
  omega

/-- Decoding the digits of a 4-byte chunk value recovers the four bytes. -/
theorem groupBytes_digits (n b0 b1 b2 b3 : Nat) (h0 : b0 < 256) (h1 : b1 < 256)
    (h2 : b2 < 256) (h3 : b3 < 256)
    (hn : n = b0 * 16777216 + b1 * 65536 + b2 * 256 + b3) :
    groupBytes (n / 52200625) (n % 52200625 / 614125)
      (n % 52200625 % 614125 / 7225) (n % 52200625 % 614125 % 7225 / 85)
      (n % 52200625 % 614125 % 7225 % 85) = [b0, b1, b2, b3] := by
  have hlt : n < 4294967296 := by omega
  unfold groupBytes
  rw [group_acc_eq n hlt]
  rw [Nat.mod_eq_of_lt (show n < 2 ^ 32 by omega)]
  simp only [Nat.shiftRight_eq_div_pow, List.cons.injEq]
  norm_num
  omega

/-- Extracting the top byte of a value split as high byte times 2^24 plus
a smaller remainder. -/
theorem extract_byte (a D : Nat) (ha : a < 256) (hD : D < 16777216) :
    (a * 16777216 + D) / 16777216 % 256 = a := by
  rw [Nat.add_comm, Nat.add_mul_div_right _ _ (show 0 < 16777216 by norm_num),
    Nat.div_eq_of_lt hD, Nat.zero_add, Nat.mod_eq_of_lt ha]

/-- Extracting the middle byte of a value split at 2^16. -/
theorem extract_mid_byte (hi b D : Nat) (hb : b < 256) (hD : D < 65536) :
    ((hi * 256 + b) * 65536 + D) / 65536 % 256 = b := by
  rw [Nat.add_comm, Nat.add_mul_div_right _ _ (show 0 < 65536 by norm_num),
    Nat.div_eq_of_lt hD, Nat.zero_add, Nat.mul_comm hi 256, Nat.mul_add_mod,
    Nat.mod_eq_of_lt hb]

/-- Extracting the low byte of a value split at 2^8. -/
theorem extract_mid_byte8 (hi b D : Nat) (hb : b < 256) (hD : D < 256) :
    ((hi * 256 + b) * 256 + D) / 256 % 256 = b := by
  rw [Nat.add_comm, Nat.add_mul_div_right _ _ (show 0 < 256 by norm_num),
    Nat.div_eq_of_lt hD, Nat.zero_add, Nat.mul_comm hi 256, Nat.mul_add_mod,
    Nat.mod_eq_of_lt hb]

/-- A 2-character leftover group produced by the encoder decodes back to
its single source byte: the 126-padding exceeds the dropped zero-padded
remainder, but by less than 2^24, so the top byte is unchanged. -/
theorem leftover2_bytes (n b0 : Nat) (h0 : b0 < 256) (hn : n = b0 * 16777216) :
    leftoverBytes126 [byte_to_char85 (n / 52200625),
      byte_to_char85 (n % 52200625 / 614125)] = [b0] := by
  have hlt : n < 4294967296 := by omega
  obtain ⟨l0, l1, _, _, _⟩ := group_digits_lt n hlt
  simp only [leftoverBytes126]
  rw [digit85_of_ok (char85_round _ l0), digit85_of_ok (char85_round _ l1)]
  have key : (n / 52200625 * 85 ^ 4 + n % 52200625 / 614125 * 85 ^ 3 +
      126 * 85 ^ 2 + 126 * 85 + 126) % 2 ^ 32 =
      b0 * 16777216 + (921186 - n % 52200625 % 614125) := by
    have e4 : (85 : Nat) ^ 4 = 52200625 := by norm_num
    have e3 : (85 : Nat) ^ 3 = 614125 := by norm_num
    have e2 : (85 : Nat) ^ 2 = 7225 := by norm_num
    rw [e4, e3, e2, Nat.mod_eq_of_lt (by omega)]
    omega
  rw [key, Nat.shiftRight_eq_div_pow,
    show (2 : Nat) ^ 24 = 16777216 from by norm_num,
    extract_byte b0 _ h0 (by omega)]

/-- A 3-character leftover group produced by the encoder decodes back to
its two source bytes. -/
theorem leftover3_bytes (n b0 b1 : Nat) (h0 : b0 < 256) (h1 : b1 < 256)
    (hn : n = (b0 * 256 + b1) * 65536) :
    leftoverBytes126 [byte_to_char85 (n / 52200625),
      byte_to_char85 (n % 52200625 / 614125),
      byte_to_char85 (n % 52200625 % 614125 / 7225)] = [b0, b1] := by
  have hlt : n < 4294967296 := by omega
  obtain ⟨l0, l1, l2, _, _⟩ := group_digits_lt n hlt
  simp only [leftoverBytes126]
  rw [digit85_of_ok (char85_round _ l0), digit85_of_ok (char85_round _ l1),
    digit85_of_ok (char85_round _ l2)]
  have key : (n / 52200625 * 85 ^ 4 + n % 52200625 / 614125 * 85 ^ 3 +
      n % 52200625 % 614125 / 7225 * 85 ^ 2 + 126 * 85 + 126) % 2 ^ 32 =
      b0 * 16777216 + (b1 * 65536 + (10836 - n % 52200625 % 614125 % 7225)) := by
    have e4 : (85 : Nat) ^ 4 = 52200625 := by norm_num
    have e3 : (85 : Nat) ^ 3 = 614125 := by norm_num
    have e2 : (85 : Nat) ^ 2 = 7225 := by norm_num
    rw [e4, e3, e2, Nat.mod_eq_of_lt (by omega)]
    omega
  rw [key]
  simp only [Nat.shiftRight_eq_div_pow]
  rw [show (2 : Nat) ^ 24 = 16777216 from by norm_num,
    show (2 : Nat) ^ 16 = 65536 from by norm_num,
    extract_byte b0 _ h0 (by omega),
    show b0 * 16777216 + (b1 * 65536 + (10836 - n % 52200625 % 614125 % 7225)) =
      (b0 * 256 + b1) * 65536 + (10836 - n % 52200625 % 614125 % 7225)
      from by ring,
    extract_mid_byte b0 b1 _ h1 (by omega)]

/-- A 4-character leftover group produced by the encoder decodes back to
its three source bytes. -/
theorem leftover4_bytes (n b0 b1 b2 : Nat) (h0 : b0 < 256) (h1 : b1 < 256)
    (h2 : b2 < 256) (hn : n = ((b0 * 256 + b1) * 256 + b2) * 256) :
    leftoverBytes126 [byte_to_char85 (n / 52200625),
      byte_to_char85 (n % 52200625 / 614125),
      byte_to_char85 (n % 52200625 % 614125 / 7225),
      byte_to_char85 (n % 52200625 % 614125 % 7225 / 85)] = [b0, b1, b2] := by
  have hlt : n < 4294967296 := by omega
  obtain ⟨l0, l1, l2, l3, _⟩ := group_digits_lt n hlt
  simp only [leftoverBytes126]
  rw [digit85_of_ok (char85_round _ l0), digit85_of_ok (char85_round _ l1),
    digit85_of_ok (char85_round _ l2), digit85_of_ok (char85_round _ l3)]
  have key : (n / 52200625 * 85 ^ 4 + n % 52200625 / 614125 * 85 ^ 3 +
      n % 52200625 % 614125 / 7225 * 85 ^ 2 +
      n % 52200625 % 614125 % 7225 / 85 * 85 + 126) % 2 ^ 32 =
      b0 * 16777216 + (b1 * 65536 +
        (b2 * 256 + (126 - n % 52200625 % 614125 % 7225 % 85))) := by
    have e4 : (85 : Nat) ^ 4 = 52200625 := by norm_num
    have e3 : (85 : Nat) ^ 3 = 614125 := by norm_num
    have e2 : (85 : Nat) ^ 2 = 7225 := by norm_num
    rw [e4, e3, e2, Nat.mod_eq_of_lt (by omega)]
    omega
  rw [key]
  simp only [Nat.shiftRight_eq_div_pow]
  rw [show (2 : Nat) ^ 24 = 16777216 from by norm_num,
    show (2 : Nat) ^ 16 = 65536 from by norm_num,
    show (2 : Nat) ^ 8 = 256 from by norm_num,
    extract_byte b0 _ h0 (by omega),
    show b0 * 16777216 + (b1 * 65536 +
        (b2 * 256 + (126 - n % 52200625 % 614125 % 7225 % 85))) =
      (b0 * 256 + b1) * 65536 +
        (b2 * 256 + (126 - n % 52200625 % 614125 % 7225 % 85)) from by ring,
    extract_mid_byte b0 b1 _ h1 (by omega),
    show (b0 * 256 + b1) * 65536 +
        (b2 * 256 + (126 - n % 52200625 % 614125 % 7225 % 85)) =
      ((b0 * 256 + b1) * 256 + b2) * 256 +
        (126 - n % 52200625 % 614125 % 7225 % 85) from by ring,
    extract_mid_byte8 (b0 * 256 + b1) b2 _ h2 (by omega)]

/-- C1: decoding the encoding of any byte buffer returns the original
buffer, the empty buffer included. -/
theorem c1_roundtrip : ∀ b : List Nat, (∀ x ∈ b, x < 256) →
    decode (encode b) = Except.ok b := by
  intro b
  induction b using encode.induct with
  | case1 =>
      intro _
      rfl
  | case2 b0 b1 b2 b3 rest ih =>
      intro hb
      have e0 := hb b0 (by simp)
      have e1 := hb b1 (by simp)
      have e2 := hb b2 (by simp)
      have e3 := hb b3 (by simp)
      set N := (b0 <<< 24) ||| (b1 <<< 16) ||| (b2 <<< 8) ||| b3 with hNdef
      have hn : N = b0 * 16777216 + b1 * 65536 + b2 * 256 + b3 := by
        rw [hNdef]
        exact decnum_eq b0 b1 b2 b3 e0 e1 e2 e3
      have hlt : N < 4294967296 := by omega
      obtain ⟨l0, l1, l2, l3, l4⟩ := group_digits_lt N hlt
      rw [show encode (b0 :: b1 :: b2 :: b3 :: rest) =
            encodeGroup N ++ encode rest from rfl]
      simp only [encodeGroup, List.cons_append, List.nil_append]
      rw [decode_cons5_ok_intro (char85_round _ l0) (char85_round _ l1)
        (char85_round _ l2) (char85_round _ l3) (char85_round _ l4)
        (ih (fun x hx => hb x (by simp [hx])))]
      rw [groupBytes_digits N b0 b1 b2 b3 e0 e1 e2 e3 hn]
      rfl
  | case3 b0 =>
      intro hb
      have e0 := hb b0 (by simp)
      set N := ((b0 <<< 8) <<< 8) <<< 8 with hNdef
      have hn : N = b0 * 16777216 := by
        rw [hNdef]
        simp only [Nat.shiftLeft_eq]
        omega
      have hlt : N < 4294967296 := by omega
      obtain ⟨l0, l1, _, _, _⟩ := group_digits_lt N hlt
      rw [show encode [b0] = (encodeGroup N).take 2 from rfl,
        show (encodeGroup N).take 2 =
          [byte_to_char85 (N / 52200625), byte_to_char85 (N % 52200625 / 614125)]
          from rfl,
        decode_pair_ok_intro (char85_round _ l0) (char85_round _ l1),
        leftover2_bytes N b0 e0 hn]
  | case4 b0 b1 =>
      intro hb
      have e0 := hb b0 (by simp)
      have e1 := hb b1 (by simp)
      set N := (((b0 <<< 8) ||| b1) <<< 8) <<< 8 with hNdef
      have hn : N = (b0 * 256 + b1) * 65536 := by
        rw [hNdef, shl_or_eq b0 b1 8 (by omega)]
        simp only [Nat.shiftLeft_eq]
        omega
      have hlt : N < 4294967296 := by omega
      obtain ⟨l0, l1, l2, _, _⟩ := group_digits_lt N hlt
      rw [show encode [b0, b1] = (encodeGroup N).take 3 from rfl,
        show (encodeGroup N).take 3 =
          [byte_to_char85 (N / 52200625), byte_to_char85 (N % 52200625 / 614125),
           byte_to_char85 (N % 52200625 % 614125 / 7225)] from rfl,
        decode_triple_ok_intro (char85_round _ l0) (char85_round _ l1)
          (char85_round _ l2),
        leftover3_bytes N b0 b1 e0 e1 hn]
  | case5 b0 b1 b2 =>
      intro hb
      have e0 := hb b0 (by simp)
      have e1 := hb b1 (by simp)
      have e2 := hb b2 (by simp)
      set N := ((((b0 <<< 8) ||| b1) <<< 8) ||| b2) <<< 8 with hNdef
      have hn : N = ((b0 * 256 + b1) * 256 + b2) * 256 := by
        rw [hNdef, shl_or_eq b0 b1 8 (by omega)]
        rw [shl_or_eq _ b2 8 (by omega)]
        simp only [Nat.shiftLeft_eq]
        omega
      have hlt : N < 4294967296 := by omega
      obtain ⟨l0, l1, l2, l3, _⟩ := group_digits_lt N hlt
      rw [show encode [b0, b1, b2] = (encodeGroup N).take 4 from rfl,
        show (encodeGroup N).take 4 =
          [byte_to_char85 (N / 52200625), byte_to_char85 (N % 52200625 / 614125),
           byte_to_char85 (N % 52200625 % 614125 / 7225),
           byte_to_char85 (N % 52200625 % 614125 % 7225 / 85)] from rfl,
        decode_quad_ok_intro (char85_round _ l0) (char85_round _ l1)
          (char85_round _ l2) (char85_round _ l3),
        leftover4_bytes N b0 b1 b2 e0 e1 e2 hn]

/-- C1 witness: the crate's own first test vector, "a" round-trips. -/
theorem c1_roundtrip_witness : decode (encode [97]) = Except.ok [97] :=
  c1_roundtrip [97] (by decide)

/-- C3 witness: the amended rule evaluated on the input "0Q" and its
decode output. -/
theorem c3_leftover_126_padding_witness :
    ([1] : List Nat).drop (([48, 81] : List Nat).length / 5 * 4) =
      leftoverBytes126 (([48, 81] : List Nat).drop
        (([48, 81] : List Nat).length / 5 * 5)) ∧
    (([1] : List Nat).drop (([48, 81] : List Nat).length / 5 * 4)).length =
      ([48, 81] : List Nat).length % 5 - 1 :=
  c3_leftover_126_padding [48, 81] [1] rfl (by decide)

end Base85
